import Mathlib

/-! Directory watcher of `shards/watcher.go`.

A shallow embedding of `DirectoryWatcher.scan`, `NewDirectoryWatcher` and
`humanTruncateList`.

* Go strings are Lean `String`s; Go compares strings byte by byte, which on
  UTF-8 text is the order of the code points, so `strLE` compares the lists of
  code points.
* `time.Time` values returned by `ModTime()` are compared with `!=`; they are
  modelled by `Nat` instants.
* `map[string]time.Time` is an association list with unique keys
  (`NodupKeys`); `range` over a map visits its entries in an unspecified
  order, which a `RangeOrder` supplies.
* The outside world of one `scan` is a `ScanInput`: the result of
  `filepath.Glob`, the result of `os.Lstat` on each path, and the two orders
  in which the two `range` loops visit their maps.
* The loader is observed through the sequence of `Call`s a scan issues, in
  the order in which the calls are issued (drops are synchronous, each load
  is started in its own goroutine and `scan` waits for all of them).
-/

namespace Shards

/-! ## Strings -/

/-- Lexicographic comparison of two lists of code points. -/
def lexLE : List Nat → List Nat → Bool
  | [], _ => true
  | _ :: _, [] => false
  | a :: as, b :: bs => if a < b then true else if b < a then false else lexLE as bs

/-- The code points of a string. -/
def codes (s : String) : List Nat := s.toList.map Char.toNat

/-- The Go comparison `a <= b` on strings. -/
def strLE (a b : String) : Prop := lexLE (codes a) (codes b) = true

instance : DecidableRel strLE := fun a b => by unfold strLE; exact inferInstance

/-- The Go comparison `a < b` on strings. -/
def strLT (a b : String) : Prop := strLE a b ∧ a ≠ b

instance : DecidableRel strLT := fun a b => by unfold strLT; exact inferInstance

/-- Result of `sort.Strings`: the ascending arrangement of the slice. -/
def sortStrings (paths : List String) : List String := List.insertionSort strLE paths

/-- The Go function `strings.Contains(s, sub)`. -/
def Contains (s sub : String) : Prop := sub.toList <:+: s.toList

/-- The Go function `filepath.Base` on a slash-separated path: trailing slashes are
removed, then everything up to the last slash; the empty path gives `"."` and
a path of slashes only gives `"/"`. -/
def filepathBase (path : String) : String :=
  if path.toList = [] then "."
  else
    let stripped := (path.toList.reverse.dropWhile (fun c => c = '/')).reverse
    let last := (stripped.reverse.takeWhile (fun c => c ≠ '/')).reverse
    if last = [] then "/" else String.mk last

/-- The `%d` verb of `fmt` on an `int`. -/
def fmtInt (n : Int) : String := toString n

/-! ## `humanTruncateList` -/

/-- The loop of `humanTruncateList` from index `i` on: `n` is `len(paths)`,
`b` the contents of the string builder. -/
def humanTruncateLoop (n : Nat) (max : Int) : Nat → List String → String → String
  | _, [], b => b
  | i, p :: ps, b =>
    if (i : Int) ≥ max then
      b ++ ("... " ++ fmtInt ((n : Int) - (i : Int)) ++ " more")
    else
      humanTruncateLoop n max (i + 1) ps
        ((if i > 0 then b ++ ", " else b) ++ filepathBase p)

/-- The function `humanTruncateList(paths, max)`: the first component is the
content of the slice of the caller afterwards (it is sorted in place), the second
the returned string. -/
def humanTruncateList (paths : List String) (max : Int) : List String × String :=
  let sorted := sortStrings paths
  (sorted, humanTruncateLoop sorted.length max 0 sorted "")

/-! ## Maps -/

/-- Instant of a modification time. -/
abbrev Time := Nat

/-- The type `map[string]time.Time`. -/
abbrev Timestamps := List (String × Time)

/-- Keys of a map. -/
def keys (m : Timestamps) : List String := m.map Prod.fst

/-- Well-formedness of a map: no key occurs twice. -/
def NodupKeys (m : Timestamps) : Prop := (keys m).Nodup

instance (m : Timestamps) : Decidable (NodupKeys m) := by unfold NodupKeys; exact inferInstance

/-- The lookup `m[k]` with its `ok` flag. -/
def mapGet : Timestamps → String → Option Time
  | [], _ => none
  | (k', v) :: m, k => if k' = k then some v else mapGet m k

/-- The assignment `m[k] = v`. -/
def mapSet : Timestamps → String → Time → Timestamps
  | [], k, v => [(k, v)]
  | (k', v') :: m, k, v => if k' = k then (k, v) :: m else (k', v') :: mapSet m k v

/-- The call `delete(m, k)`. -/
def mapDelete (m : Timestamps) (k : String) : Timestamps := m.filter (fun e => e.1 ≠ k)

/-- The order in which a `range` loop visits the entries of a map: some
arrangement of the entries. -/
structure RangeOrder where
  order : Timestamps → Timestamps
  perm : ∀ m, (order m).Perm m

/-- Visit the entries as stored. -/
def RangeOrder.stored : RangeOrder := ⟨fun m => m, fun _ => List.Perm.refl _⟩

/-- Visit the entries in reverse. -/
def RangeOrder.reversed : RangeOrder := ⟨List.reverse, List.reverse_perm⟩

/-! ## `scan` -/

/-- A call on the `shardLoader`. -/
inductive Call where
  | load (filename : String)
  | drop (filename : String)
  deriving DecidableEq

/-- What one `scan` reads from outside the watcher. -/
structure ScanInput where
  /-- Result of `filepath.Glob(filepath.Join(dir, "*.zoekt"))`. -/
  glob : Except String (List String)
  /-- Modification time `os.Lstat(fn)` reports, `none` when `Lstat` fails. -/
  lstat : String → Option Time
  /-- Order of `for k, mtime := range ts`. -/
  rangeTs : RangeOrder
  /-- Order of `for k := range s.timestamps`. -/
  rangeTimestamps : RangeOrder

/-- The fields of `DirectoryWatcher` that `scan` uses. -/
structure DirectoryWatcher where
  dir : String
  timestamps : Timestamps
  deriving DecidableEq

/-- Outcome of one `scan`: the returned error, the watcher afterwards and the
loader calls issued, in order. -/
structure ScanResult where
  err : Option String
  watcher : DirectoryWatcher
  calls : List Call

/-- Lines 89-97: the map `ts` of the listed files whose `Lstat` succeeds. -/
def buildTs (lstat : String → Option Time) : List String → Timestamps → Timestamps
  | [], ts => ts
  | fn :: fs, ts =>
    match lstat fn with
    | none => buildTs lstat fs ts
    | some mtime => buildTs lstat fs (mapSet ts fn mtime)

/-- Lines 99-105: the loop over `ts` that fills `toLoad` and updates
`s.timestamps`. -/
def loadLoop : List (String × Time) → List String → Timestamps → List String × Timestamps
  | [], toLoad, timestamps => (toLoad, timestamps)
  | (k, mtime) :: rest, toLoad, timestamps =>
    match mapGet timestamps k with
    | some t =>
      if t ≠ mtime then loadLoop rest (toLoad ++ [k]) (mapSet timestamps k mtime)
      else loadLoop rest toLoad timestamps
    | none => loadLoop rest (toLoad ++ [k]) (mapSet timestamps k mtime)

/-- Lines 107-114: the loop over `s.timestamps` that fills `toDrop` and
deletes the entries absent from `ts`. Only the entry being visited is ever
deleted, so every entry present when the loop starts is visited once. -/
def dropLoop (ts : Timestamps) : List (String × Time) → List String → Timestamps →
    List String × Timestamps
  | [], toDrop, timestamps => (toDrop, timestamps)
  | (k, _) :: rest, toDrop, timestamps =>
    match mapGet ts k with
    | none => dropLoop ts rest (toDrop ++ [k]) (mapDelete timestamps k)
    | some _ => dropLoop ts rest toDrop timestamps

/-- The method `DirectoryWatcher.scan`. -/
def scan (s : DirectoryWatcher) (inp : ScanInput) : ScanResult :=
  match inp.glob with
  | .error err => ⟨some err, s, []⟩
  | .ok fs =>
    if s.timestamps.length = 0 ∧ fs.length = 0 then
      ⟨some ("directory " ++ s.dir ++ " is empty"), s, []⟩
    else
      let ts := buildTs inp.lstat fs []
      let l := loadLoop (inp.rangeTs.order ts) [] s.timestamps
      let d := dropLoop ts (inp.rangeTimestamps.order l.2) [] l.2
      let drops := d.1.map Call.drop
      if l.1.length = 0 then
        ⟨none, ⟨s.dir, d.2⟩, drops⟩
      else
        let toLoad := (humanTruncateList l.1 5).1
        ⟨none, ⟨s.dir, d.2⟩, drops ++ toLoad.map Call.load⟩

/-- The constructor `NewDirectoryWatcher`: the first scan on an empty map,
then `watch`, whose error (from the notification library) is `watchErr`.
Returns the watcher or the error, and the loader calls issued. -/
def NewDirectoryWatcher (dir : String) (inp : ScanInput) (watchErr : Option String) :
    Except String DirectoryWatcher × List Call :=
  let r := scan ⟨dir, []⟩ inp
  match r.err with
  | some err => (.error err, r.calls)
  | none =>
    match watchErr with
    | some err => (.error err, r.calls)
    | none => (.ok r.watcher, r.calls)

/-- The scan-processing task of `watch`: one `scan` per signal, its error
discarded. Returns the watcher afterwards and all loader calls. -/
def runScans (s : DirectoryWatcher) : List ScanInput → DirectoryWatcher × List Call
  | [] => (s, [])
  | inp :: rest =>
    let r := scan s inp
    let q := runScans r.watcher rest
    (q.1, r.calls ++ q.2)

/-! ## Specification-side definitions -/

/-- The snapshot `S` of a listing: each listed path whose `Lstat` succeeds,
with its modification time. -/
def snapshot (inp : ScanInput) (k : String) : Option Time :=
  match inp.glob with
  | .ok fs => if k ∈ fs then inp.lstat k else none
  | .error _ => none

/-- The `load` calls of a sequence of loader calls, in order. -/
def loadsOf : List Call → List String
  | [] => []
  | Call.load k :: cs => k :: loadsOf cs
  | Call.drop _ :: cs => loadsOf cs

/-- Whether a loader call is a `load`. -/
def Call.isLoad : Call → Bool
  | Call.load _ => true
  | Call.drop _ => false

/-- Whether a loader call is a `drop`. -/
def Call.isDrop : Call → Bool
  | Call.load _ => false
  | Call.drop _ => true

/-- The string that the specification gives for `humanTruncateList`:
the base names of the first `max` sorted paths joined with `", "`, then
`"... <remaining> more"` with `remaining = total - max` when there are more
than `max` paths. -/
def humanTruncateClaim (paths : List String) (max : Int) : String :=
  let sorted := sortStrings paths
  String.intercalate ", " ((sorted.take max.toNat).map filepathBase) ++
    (if (sorted.length : Int) > max then
      "... " ++ fmtInt ((sorted.length : Int) - max) ++ " more"
    else "")

/-- The map `ts` of `scan` for the listing `fs`. -/
def tsOf (inp : ScanInput) (fs : List String) : Timestamps := buildTs inp.lstat fs []

/-- The slice `toLoad` of `scan` when its first loop ends. -/
def toLoadOf (s : DirectoryWatcher) (inp : ScanInput) (fs : List String) : List String :=
  (loadLoop (inp.rangeTs.order (tsOf inp fs)) [] s.timestamps).1

/-- The map `s.timestamps` when the first loop of `scan` ends. -/
def afterLoad (s : DirectoryWatcher) (inp : ScanInput) (fs : List String) : Timestamps :=
  (loadLoop (inp.rangeTs.order (tsOf inp fs)) [] s.timestamps).2

/-- The slice `toDrop` of `scan` when its second loop ends. -/
def toDropOf (s : DirectoryWatcher) (inp : ScanInput) (fs : List String) : List String :=
  (dropLoop (tsOf inp fs) (inp.rangeTimestamps.order (afterLoad s inp fs)) []
    (afterLoad s inp fs)).1

/-- The map `s.timestamps` when the second loop of `scan` ends. -/
def afterDrop (s : DirectoryWatcher) (inp : ScanInput) (fs : List String) : Timestamps :=
  (dropLoop (tsOf inp fs) (inp.rangeTimestamps.order (afterLoad s inp fs)) []
    (afterLoad s inp fs)).2

/-- The watcher after a first scan on a fresh watcher for `dir` followed by
the scans of the scan-processing task on the inputs `later`. -/
def watcherAfter (dir : String) (first : ScanInput) (later : List ScanInput) :
    DirectoryWatcher :=
  (runScans (scan ⟨dir, []⟩ first).watcher later).1

/-- A stat oracle given by a table. -/
def statTable (l : List (String × Time)) : String → Option Time := fun k => mapGet l k

/-- A watcher that tracks the shards `a` and `b`. -/
def trackedAB : DirectoryWatcher := ⟨"d", [("d/a.zoekt", 1), ("d/b.zoekt", 1)]⟩

/-- A listing in which `a` has been rewritten, `b` deleted and `c` created. -/
def listingAC : ScanInput :=
  ⟨.ok ["d/a.zoekt", "d/c.zoekt"], statTable [("d/a.zoekt", 2), ("d/c.zoekt", 5)],
    RangeOrder.stored, RangeOrder.reversed⟩

/-- A listing in which `a` is unchanged and `b` is back with its old timestamp. -/
def listingAB : ScanInput :=
  ⟨.ok ["d/b.zoekt", "d/a.zoekt"], statTable [("d/a.zoekt", 2), ("d/b.zoekt", 1)],
    RangeOrder.reversed, RangeOrder.stored⟩

/-- A listing with the single shard `a`. -/
def listingA : ScanInput :=
  ⟨.ok ["d/a.zoekt"], statTable [("d/a.zoekt", 1)], RangeOrder.stored, RangeOrder.stored⟩

/-- A listing without any matching file. -/
def listingNone : ScanInput :=
  ⟨.ok [], fun _ => none, RangeOrder.stored, RangeOrder.stored⟩

/-- A listing of `a` and `b` in which `Lstat` fails on `a` (it is removed
between the glob and the stat) and `b` is unchanged. -/
def listingStatFails : ScanInput :=
  ⟨.ok ["d/a.zoekt", "d/b.zoekt"], statTable [("d/b.zoekt", 1)],
    RangeOrder.stored, RangeOrder.stored⟩

/-! ## The order on strings -/

theorem lexLE_total : ∀ a b : List Nat, lexLE a b = true ∨ lexLE b a = true
  | [], _ => Or.inl rfl
  | _ :: _, [] => Or.inr rfl
  | a :: as, b :: bs => by
    rcases Nat.lt_trichotomy a b with h | h | h
    · left; simp [lexLE, h]
    · subst h; simpa [lexLE] using lexLE_total as bs
    · right; simp [lexLE, h]

theorem lexLE_trans : ∀ a b c : List Nat,
    lexLE a b = true → lexLE b c = true → lexLE a c = true
  | [], _, _, _, _ => rfl
  | _ :: _, [], _, h, _ => by simp [lexLE] at h
  | _ :: _, _ :: _, [], _, h => by simp [lexLE] at h
  | a :: as, b :: bs, c :: cs, h₁, h₂ => by
    simp only [lexLE] at h₁ h₂ ⊢
    by_cases hab : a < b
    · by_cases hbc : b < c
      · simp [Nat.lt_trans hab hbc]
      · by_cases hcb : c < b
        · simp [hbc, hcb] at h₂
        · have : b = c := by omega
          subst this; simp [hab]
    · by_cases hba : b < a
      · simp [hab, hba] at h₁
      · have hab' : a = b := by omega
        subst hab'
        simp only [hab, if_false] at h₁
        by_cases hac : a < c
        · simp [hac]
        · by_cases hca : c < a
          · simp [hac, hca] at h₂
          · simp only [hac, hca, if_false] at h₂ ⊢
            exact lexLE_trans as bs cs h₁ h₂

theorem lexLE_antisymm : ∀ a b : List Nat,
    lexLE a b = true → lexLE b a = true → a = b
  | [], [], _, _ => rfl
  | [], _ :: _, _, h => by simp [lexLE] at h
  | _ :: _, [], h, _ => by simp [lexLE] at h
  | a :: as, b :: bs, h₁, h₂ => by
    simp only [lexLE] at h₁ h₂
    by_cases hab : a < b
    · have hba : ¬ b < a := by omega
      simp [hab, hba] at h₂
    · by_cases hba : b < a
      · simp [hab, hba] at h₁
      · have : a = b := by omega
        subst this
        simp only [hab, if_false] at h₁ h₂
        rw [lexLE_antisymm as bs h₁ h₂]

theorem codes_injective : Function.Injective codes := by
  intro a b h
  unfold codes at h
  have hc : Function.Injective Char.toNat := by
    intro x y hxy
    apply Char.ext
    exact UInt32.ext hxy
  exact String.ext (List.map_injective_iff.mpr hc h)

instance : IsTotal String strLE := ⟨fun a b => lexLE_total (codes a) (codes b)⟩

instance : IsTrans String strLE := ⟨fun a b c => lexLE_trans (codes a) (codes b) (codes c)⟩

instance : IsAntisymm String strLE :=
  ⟨fun a b h₁ h₂ => codes_injective (lexLE_antisymm (codes a) (codes b) h₁ h₂)⟩

theorem sortStrings_sorted (l : List String) : List.Sorted strLE (sortStrings l) :=
  List.sorted_insertionSort strLE l

theorem sortStrings_perm (l : List String) : (sortStrings l).Perm l :=
  List.perm_insertionSort strLE l

theorem sortStrings_eq_of_perm {l₁ l₂ : List String} (h : l₁.Perm l₂) :
    sortStrings l₁ = sortStrings l₂ :=
  List.eq_of_perm_of_sorted
    (((sortStrings_perm l₁).trans h).trans (sortStrings_perm l₂).symm)
    (sortStrings_sorted l₁) (sortStrings_sorted l₂)

theorem sortStrings_strict {l : List String} (h : l.Nodup) :
    List.Pairwise strLT (sortStrings l) := by
  have hs : List.Pairwise strLE (sortStrings l) := sortStrings_sorted l
  have hn : List.Pairwise (fun a b => a ≠ b) (sortStrings l) :=
    ((sortStrings_perm l).nodup_iff).mpr h
  exact hs.and hn

/-! ## The loop of `humanTruncateList` -/

theorem humanTruncateLoop_go (n : Nat) (max : Int) (m : Nat) (hm : (m : Int) = max) :
    ∀ (ps : List String) (i : Nat) (b : String), 0 < i → i ≤ m → n = i + ps.length →
      humanTruncateLoop n max i ps b =
        String.intercalate.go b ", " ((ps.take (m - i)).map filepathBase) ++
          (if (n : Int) > max then "... " ++ fmtInt ((n : Int) - max) ++ " more" else "")
  | [], i, b, _, hi, hn => by
    have : ¬ ((n : Int) > max) := by simp at hn; omega
    simp [humanTruncateLoop, String.intercalate.go, this, String.append_empty]
  | p :: ps, i, b, hpos, hi, hn => by
    simp only [List.length_cons] at hn
    by_cases hge : (i : Int) ≥ max
    · have him : m - i = 0 := by omega
      have hmax : max = (i : Int) := by omega
      have hgt : (n : Int) > max := by omega
      rw [humanTruncateLoop, if_pos hge, if_pos hgt, him, List.take_zero, List.map_nil,
        String.intercalate.go, hmax]
    · have hlt : i < m := by omega
      have hstep : m - i = (m - (i + 1)) + 1 := by omega
      rw [humanTruncateLoop, if_neg hge, if_pos hpos,
        humanTruncateLoop_go n max m hm ps (i + 1) _ (by omega) (by omega) (by omega),
        hstep, List.take_succ_cons, List.map_cons, String.intercalate.go]

theorem humanTruncateList_nonneg (paths : List String) (max : Int) (h : 0 ≤ max) :
    (humanTruncateList paths max).2 = humanTruncateClaim paths max := by
  unfold humanTruncateList humanTruncateClaim
  simp only
  generalize sortStrings paths = sorted
  have hm : ((max.toNat : Nat) : Int) = max := Int.toNat_of_nonneg h
  cases sorted with
  | nil =>
    have : ¬ ((0 : Int) > max) := by omega
    simp [humanTruncateLoop, String.intercalate, this]
  | cons p ps =>
    by_cases h0 : max = 0
    · subst h0
      simp [humanTruncateLoop, String.intercalate, String.empty_append]
    · have hpos : 0 < max.toNat := by omega
      have hge : ¬ (((0 : Nat) : Int) ≥ max) := by omega
      have hstep : max.toNat = (max.toNat - 1) + 1 := by omega
      rw [humanTruncateLoop, if_neg hge, if_neg (Nat.lt_irrefl 0), String.empty_append,
        humanTruncateLoop_go (p :: ps).length max max.toNat hm ps 1 _ (by omega) (by omega)
          (by simp; omega)]
      conv_rhs => rw [hstep, List.take_succ_cons, List.map_cons, String.intercalate]

theorem humanTruncateList_neg (paths : List String) (max : Int) (h : max ≤ 0) :
    (humanTruncateList paths max).2 = (humanTruncateList paths 0).2 := by
  unfold humanTruncateList
  simp only
  generalize sortStrings paths = sorted
  cases sorted with
  | nil => rfl
  | cons p ps =>
    have h₁ : ((0 : Nat) : Int) ≥ max := by omega
    have h₂ : ((0 : Nat) : Int) ≥ 0 := le_refl _
    rw [humanTruncateLoop, if_pos h₁, humanTruncateLoop, if_pos h₂]

/-! ## Maps: lookup, assignment, deletion -/

theorem mapGet_mapSet (m : Timestamps) (k : String) (v : Time) (k' : String) :
    mapGet (mapSet m k v) k' = if k = k' then some v else mapGet m k' := by
  induction m with
  | nil => simp [mapSet, mapGet]
  | cons e m ih =>
    obtain ⟨a, b⟩ := e
    by_cases h : a = k
    · subst h
      by_cases h' : a = k' <;> simp [mapSet, mapGet, h']
    · by_cases h' : a = k'
      · subst h'
        have : ¬ k = a := fun e => h e.symm
        simp [mapSet, mapGet, h, this]
      · simp [mapSet, mapGet, h, h', ih]

theorem mapGet_filter (p : String → Bool) (m : Timestamps) (k : String) :
    mapGet (m.filter (fun e => p e.1)) k = if p k = true then mapGet m k else none := by
  induction m with
  | nil => simp [mapGet]
  | cons e m ih =>
    obtain ⟨a, b⟩ := e
    by_cases hp : p a = true
    · rw [List.filter_cons_of_pos (by simpa using hp)]
      by_cases h : a = k
      · subst h; simp [mapGet, hp]
      · simp [mapGet, h, ih]
    · rw [List.filter_cons_of_neg (by simpa using hp)]
      by_cases h : a = k
      · subst h; simp [mapGet, hp, ih]
      · simp [mapGet, h, ih]

theorem mapGet_mapDelete (m : Timestamps) (k k' : String) :
    mapGet (mapDelete m k) k' = if k = k' then none else mapGet m k' := by
  unfold mapDelete
  rw [mapGet_filter (fun a => decide (a ≠ k)) m k']
  by_cases h : k = k'
  · subst h; simp
  · have : ¬ k' = k := fun e => h e.symm
    simp [h, this]

theorem mem_keys_iff (m : Timestamps) (k : String) : k ∈ keys m ↔ mapGet m k ≠ none := by
  induction m with
  | nil => simp [keys, mapGet]
  | cons e m ih =>
    obtain ⟨a, b⟩ := e
    by_cases h : a = k
    · subst h; simp [keys, mapGet]
    · have h' : ¬ k = a := fun e => h e.symm
      have ih' : k ∈ List.map Prod.fst m ↔ mapGet m k ≠ none := ih
      simp [keys, mapGet, h, h', ih']

theorem mem_of_mapGet {m : Timestamps} {k : String} {v : Time} (h : mapGet m k = some v) :
    (k, v) ∈ m := by
  induction m with
  | nil => simp [mapGet] at h
  | cons e m ih =>
    obtain ⟨a, b⟩ := e
    by_cases hk : a = k
    · subst hk
      simp [mapGet] at h
      subst h
      exact List.mem_cons_self _ _
    · simp only [mapGet, if_neg hk] at h
      exact List.mem_cons_of_mem _ (ih h)

theorem mapGet_of_mem {m : Timestamps} (hm : NodupKeys m) {k : String} {v : Time}
    (h : (k, v) ∈ m) : mapGet m k = some v := by
  induction m with
  | nil => simp at h
  | cons e m ih =>
    obtain ⟨a, b⟩ := e
    have hm' : a ∉ keys m ∧ NodupKeys m := by
      simpa [NodupKeys, keys] using hm
    rcases List.mem_cons.mp h with h | h
    · cases h; simp [mapGet]
    · have hk : k ∈ keys m := List.mem_map.mpr ⟨(k, v), h, rfl⟩
      have hne : ¬ a = k := fun e => hm'.1 (e ▸ hk)
      simp [mapGet, hne, ih hm'.2 h]

theorem mapGet_perm {l₁ l₂ : Timestamps} (h : l₁.Perm l₂) (hn : NodupKeys l₂) (k : String) :
    mapGet l₁ k = mapGet l₂ k := by
  have hn₁ : NodupKeys l₁ := ((h.map Prod.fst).nodup_iff).mpr hn
  cases h₁ : mapGet l₁ k with
  | some v => exact (mapGet_of_mem hn (h.subset (mem_of_mapGet h₁))).symm
  | none =>
    cases h₂ : mapGet l₂ k with
    | none => rfl
    | some v =>
      have := mapGet_of_mem hn₁ (h.symm.subset (mem_of_mapGet h₂))
      rw [h₁] at this
      cases this

theorem nodupKeys_mapSet {m : Timestamps} (hm : NodupKeys m) (k : String) (v : Time) :
    NodupKeys (mapSet m k v) := by
  induction m with
  | nil => simp [mapSet, NodupKeys, keys]
  | cons e m ih =>
    obtain ⟨a, b⟩ := e
    have hm' : a ∉ keys m ∧ NodupKeys m := by
      simpa [NodupKeys, keys] using hm
    by_cases h : a = k
    · subst h
      simpa [mapSet, NodupKeys, keys] using hm
    · have hnot : a ∉ keys (mapSet m k v) := by
        rw [mem_keys_iff, mapGet_mapSet]
        have : ¬ k = a := fun e => h e.symm
        simpa [this, ← mem_keys_iff] using hm'.1
      have ih' := ih hm'.2
      simp only [mapSet, if_neg h]
      exact List.nodup_cons.mpr ⟨hnot, ih'⟩

theorem nodupKeys_filter {m : Timestamps} (hm : NodupKeys m) (p : String × Time → Bool) :
    NodupKeys (m.filter p) :=
  List.Nodup.sublist ((List.filter_sublist m).map Prod.fst) hm

/-! ## The three loops of `scan` -/

theorem mapGet_buildTs (lstat : String → Option Time) (k : String) :
    ∀ (fs : List String) (ts : Timestamps),
      mapGet (buildTs lstat fs ts) k =
        (if k ∈ fs then lstat k else none).elim (mapGet ts k) some
  | [], ts => by simp [buildTs]
  | fn :: fs, ts => by
    cases hfn : lstat fn with
    | none =>
      rw [buildTs, hfn]
      simp only
      rw [mapGet_buildTs lstat k fs ts]
      by_cases hk : k ∈ fs
      · simp [hk]
      · by_cases hkf : k = fn
        · subst hkf; simp [hk, hfn]
        · simp [hk, hkf]
    | some mt =>
      rw [buildTs, hfn]
      simp only
      rw [mapGet_buildTs lstat k fs (mapSet ts fn mt), mapGet_mapSet]
      by_cases hkf : k = fn
      · subst hkf
        by_cases hk : k ∈ fs <;> simp [hk, hfn]
      · have : ¬ fn = k := fun e => hkf e.symm
        simp [hkf, this]

theorem nodupKeys_buildTs (lstat : String → Option Time) :
    ∀ (fs : List String) (ts : Timestamps), NodupKeys ts → NodupKeys (buildTs lstat fs ts)
  | [], _, h => h
  | fn :: fs, ts, h => by
    cases hfn : lstat fn with
    | none =>
      rw [buildTs, hfn]
      exact nodupKeys_buildTs lstat fs ts h
    | some mt =>
      rw [buildTs, hfn]
      exact nodupKeys_buildTs lstat fs _ (nodupKeys_mapSet h fn mt)

theorem loadLoop_cons (k : String) (mt : Time) (rest : List (String × Time))
    (L : List String) (T : Timestamps) :
    loadLoop ((k, mt) :: rest) L T =
      if mapGet T k = some mt then loadLoop rest L T
      else loadLoop rest (L ++ [k]) (mapSet T k mt) := by
  rw [loadLoop]
  cases h : mapGet T k with
  | none => simp
  | some t =>
    by_cases ht : t = mt
    · simp [ht]
    · simp [ht]

theorem dropLoop_cons (ts : Timestamps) (k : String) (v : Time) (rest : List (String × Time))
    (D : List String) (T : Timestamps) :
    dropLoop ts ((k, v) :: rest) D T =
      if mapGet ts k = none then dropLoop ts rest (D ++ [k]) (mapDelete T k)
      else dropLoop ts rest D T := by
  rw [dropLoop]
  cases h : mapGet ts k <;> simp

theorem loadLoop_fst : ∀ (es : List (String × Time)) (L : List String) (T : Timestamps),
    NodupKeys es →
      (loadLoop es L T).1 =
        L ++ (es.filter (fun e => decide (mapGet T e.1 ≠ some e.2))).map Prod.fst
  | [], L, T, _ => by simp [loadLoop]
  | (k, mt) :: rest, L, T, hn => by
    have hn' : k ∉ keys rest ∧ NodupKeys rest := by
      simpa [NodupKeys, keys] using hn
    rw [loadLoop_cons]
    by_cases h : mapGet T k = some mt
    · rw [if_pos h, loadLoop_fst rest L T hn'.2, List.filter_cons_of_neg (by simpa using h)]
    · rw [if_neg h, loadLoop_fst rest _ _ hn'.2, List.filter_cons_of_pos (by simpa using h)]
      have hc : rest.filter (fun e => decide (mapGet (mapSet T k mt) e.1 ≠ some e.2)) =
          rest.filter (fun e => decide (mapGet T e.1 ≠ some e.2)) := by
        apply List.filter_congr
        intro e he
        have hne : ¬ k = e.1 := fun e' => hn'.1 (e' ▸ List.mem_map.mpr ⟨e, he, rfl⟩)
        simp [mapGet_mapSet, hne]
      rw [hc]
      simp

theorem loadLoop_get (k' : String) : ∀ (es : List (String × Time)) (L : List String)
    (T : Timestamps), NodupKeys es →
      mapGet (loadLoop es L T).2 k' = (mapGet es k').elim (mapGet T k') some
  | [], L, T, _ => by simp [loadLoop, mapGet]
  | (k, mt) :: rest, L, T, hn => by
    have hn' : k ∉ keys rest ∧ NodupKeys rest := by
      simpa [NodupKeys, keys] using hn
    rw [loadLoop_cons]
    by_cases hk : k = k'
    · subst hk
      have hrest : mapGet rest k = none := by
        by_contra hc
        exact hn'.1 ((mem_keys_iff rest k).mpr hc)
      by_cases h : mapGet T k = some mt
      · rw [if_pos h, loadLoop_get k rest L T hn'.2]
        simp [mapGet, hrest, h]
      · rw [if_neg h, loadLoop_get k rest _ _ hn'.2]
        simp [mapGet, hrest, mapGet_mapSet]
    · by_cases h : mapGet T k = some mt
      · rw [if_pos h, loadLoop_get k' rest L T hn'.2]
        simp [mapGet, hk]
      · rw [if_neg h, loadLoop_get k' rest _ _ hn'.2]
        simp [mapGet, hk, mapGet_mapSet]

theorem loadLoop_nodup : ∀ (es : List (String × Time)) (L : List String) (T : Timestamps),
    NodupKeys T → NodupKeys (loadLoop es L T).2
  | [], _, _, h => h
  | (k, mt) :: rest, L, T, h => by
    rw [loadLoop_cons]
    by_cases hk : mapGet T k = some mt
    · rw [if_pos hk]; exact loadLoop_nodup rest L T h
    · rw [if_neg hk]; exact loadLoop_nodup rest _ _ (nodupKeys_mapSet h k mt)

theorem loadLoop_id : ∀ (es : List (String × Time)) (L : List String) (T : Timestamps),
    (∀ e ∈ es, mapGet T e.1 = some e.2) → loadLoop es L T = (L, T)
  | [], _, _, _ => rfl
  | (k, mt) :: rest, L, T, h => by
    rw [loadLoop_cons, if_pos (h (k, mt) (List.mem_cons_self _ _))]
    exact loadLoop_id rest L T (fun e he => h e (List.mem_cons_of_mem _ he))

theorem dropLoop_fst (ts : Timestamps) : ∀ (es : List (String × Time)) (D : List String)
    (T : Timestamps),
      (dropLoop ts es D T).1 =
        D ++ (es.filter (fun e => decide (mapGet ts e.1 = none))).map Prod.fst
  | [], D, T => by simp [dropLoop]
  | (k, v) :: rest, D, T => by
    rw [dropLoop_cons]
    by_cases h : mapGet ts k = none
    · rw [if_pos h, dropLoop_fst ts rest _ _, List.filter_cons_of_pos (by simpa using h)]
      simp
    · rw [if_neg h, dropLoop_fst ts rest _ _, List.filter_cons_of_neg (by simpa using h)]

theorem dropLoop_snd (ts : Timestamps) : ∀ (es : List (String × Time)) (D : List String)
    (T : Timestamps),
      (dropLoop ts es D T).2 =
        T.filter (fun e => !(decide (e.1 ∈ keys es) && decide (mapGet ts e.1 = none)))
  | [], D, T => by simp [dropLoop, keys]
  | (k, v) :: rest, D, T => by
    rw [dropLoop_cons]
    by_cases h : mapGet ts k = none
    · rw [if_pos h, dropLoop_snd ts rest _ _, mapDelete, List.filter_filter]
      apply List.filter_congr
      intro e _
      by_cases hek : e.1 = k
      · simp [hek, keys, h]
      · have hb : (e.1 == k) = false := by simpa using hek
        simp [hek, hb, keys]
    · rw [if_neg h, dropLoop_snd ts rest _ _]
      apply List.filter_congr
      intro e _
      by_cases hek : e.1 = k
      · simp [hek, keys, h]
      · have hb : (e.1 == k) = false := by simpa using hek
        simp [hek, hb, keys]

theorem dropLoop_id (ts : Timestamps) : ∀ (es : List (String × Time)) (D : List String)
    (T : Timestamps), (∀ e ∈ es, mapGet ts e.1 ≠ none) → dropLoop ts es D T = (D, T)
  | [], _, _, _ => rfl
  | (k, v) :: rest, D, T, h => by
    rw [dropLoop_cons, if_neg (h (k, v) (List.mem_cons_self _ _))]
    exact dropLoop_id ts rest D T (fun e he => h e (List.mem_cons_of_mem _ he))

/-! ## One `scan` -/

theorem scan_glob_error (s : DirectoryWatcher) (inp : ScanInput) (e : String)
    (hg : inp.glob = .error e) : scan s inp = ⟨some e, s, []⟩ := by
  unfold scan; rw [hg]

theorem scan_empty (s : DirectoryWatcher) (inp : ScanInput) (fs : List String)
    (hg : inp.glob = .ok fs) (he : s.timestamps.length = 0 ∧ fs.length = 0) :
    scan s inp = ⟨some ("directory " ++ s.dir ++ " is empty"), s, []⟩ := by
  unfold scan; rw [hg]; simp only; rw [if_pos he]

theorem scan_ok (s : DirectoryWatcher) (inp : ScanInput) (fs : List String)
    (hg : inp.glob = .ok fs) (he : ¬ (s.timestamps.length = 0 ∧ fs.length = 0)) :
    scan s inp = ⟨none, ⟨s.dir, afterDrop s inp fs⟩,
      (toDropOf s inp fs).map Call.drop ++ (sortStrings (toLoadOf s inp fs)).map Call.load⟩ := by
  unfold scan; rw [hg]; simp only; rw [if_neg he]
  by_cases hl : (loadLoop (inp.rangeTs.order (buildTs inp.lstat fs [])) [] s.timestamps).1.length = 0
  · rw [if_pos hl]
    have hnil : toLoadOf s inp fs = [] := List.length_eq_zero.mp hl
    simp [hnil, sortStrings, afterDrop, toDropOf, afterLoad, tsOf]
  · rw [if_neg hl]
    simp [humanTruncateList, afterDrop, toDropOf, afterLoad, toLoadOf, tsOf]

theorem scan_of_err_none (s : DirectoryWatcher) (inp : ScanInput)
    (h : (scan s inp).err = none) :
    ∃ fs, inp.glob = .ok fs ∧ ¬ (s.timestamps.length = 0 ∧ fs.length = 0) := by
  cases hg : inp.glob with
  | error e => rw [scan_glob_error s inp e hg] at h; cases h
  | ok fs =>
    refine ⟨fs, rfl, fun he => ?_⟩
    rw [scan_empty s inp fs hg he] at h
    cases h

theorem snapshot_ok (inp : ScanInput) (fs : List String) (hg : inp.glob = .ok fs)
    (k : String) : snapshot inp k = if k ∈ fs then inp.lstat k else none := by
  unfold snapshot; rw [hg]

theorem mapGet_tsOf (inp : ScanInput) (fs : List String) (hg : inp.glob = .ok fs)
    (k : String) : mapGet (tsOf inp fs) k = snapshot inp k := by
  rw [snapshot_ok inp fs hg, tsOf, mapGet_buildTs]
  cases h : (if k ∈ fs then inp.lstat k else none) <;> simp [mapGet]

theorem nodupKeys_tsOf (inp : ScanInput) (fs : List String) : NodupKeys (tsOf inp fs) :=
  nodupKeys_buildTs inp.lstat fs [] List.nodup_nil

theorem nodupKeys_order (r : RangeOrder) {m : Timestamps} (h : NodupKeys m) :
    NodupKeys (r.order m) :=
  (((r.perm m).map Prod.fst).nodup_iff).mpr h

theorem mapGet_order (r : RangeOrder) {m : Timestamps} (h : NodupKeys m) (k : String) :
    mapGet (r.order m) k = mapGet m k :=
  mapGet_perm (r.perm m) h k

theorem mapGet_afterLoad (s : DirectoryWatcher) (inp : ScanInput) (fs : List String)
    (hg : inp.glob = .ok fs) (k : String) :
    mapGet (afterLoad s inp fs) k = (snapshot inp k).elim (mapGet s.timestamps k) some := by
  rw [afterLoad, loadLoop_get k _ _ _ (nodupKeys_order _ (nodupKeys_tsOf inp fs)),
    mapGet_order _ (nodupKeys_tsOf inp fs), mapGet_tsOf inp fs hg]

theorem nodupKeys_afterLoad (s : DirectoryWatcher) (inp : ScanInput) (fs : List String)
    (h : NodupKeys s.timestamps) : NodupKeys (afterLoad s inp fs) :=
  loadLoop_nodup _ _ _ h

theorem mapGet_afterDrop (s : DirectoryWatcher) (inp : ScanInput) (fs : List String)
    (hg : inp.glob = .ok fs) (k : String) :
    mapGet (afterDrop s inp fs) k = snapshot inp k := by
  rw [afterDrop, dropLoop_snd,
    mapGet_filter (fun a => !(decide (a ∈ keys (inp.rangeTimestamps.order (afterLoad s inp fs)))
      && decide (mapGet (tsOf inp fs) a = none))),
    mapGet_afterLoad s inp fs hg, mapGet_tsOf inp fs hg]
  have hk : k ∈ keys (inp.rangeTimestamps.order (afterLoad s inp fs)) ↔
      mapGet (afterLoad s inp fs) k ≠ none := by
    rw [← mem_keys_iff]
    exact ((inp.rangeTimestamps.perm _).map Prod.fst).mem_iff
  rw [mapGet_afterLoad s inp fs hg] at hk
  cases hs : snapshot inp k with
  | some t => simp
  | none =>
    rw [hs] at hk
    simp only [Option.elim] at hk ⊢
    by_cases hT : mapGet s.timestamps k = none
    · simp [hT]
    · simp [hk.mpr hT]

theorem nodupKeys_afterDrop (s : DirectoryWatcher) (inp : ScanInput) (fs : List String)
    (h : NodupKeys s.timestamps) : NodupKeys (afterDrop s inp fs) := by
  rw [afterDrop, dropLoop_snd]
  exact nodupKeys_filter (nodupKeys_afterLoad s inp fs h) _

theorem toLoadOf_eq (s : DirectoryWatcher) (inp : ScanInput) (fs : List String) :
    toLoadOf s inp fs =
      ((inp.rangeTs.order (tsOf inp fs)).filter
        (fun e => decide (mapGet s.timestamps e.1 ≠ some e.2))).map Prod.fst := by
  rw [toLoadOf, loadLoop_fst _ _ _ (nodupKeys_order _ (nodupKeys_tsOf inp fs))]
  simp

theorem toLoadOf_nodup (s : DirectoryWatcher) (inp : ScanInput) (fs : List String) :
    (toLoadOf s inp fs).Nodup := by
  rw [toLoadOf_eq]
  exact List.Nodup.sublist ((List.filter_sublist _).map Prod.fst)
    (nodupKeys_order inp.rangeTs (nodupKeys_tsOf inp fs))

theorem mem_toLoadOf (s : DirectoryWatcher) (inp : ScanInput) (fs : List String)
    (hg : inp.glob = .ok fs) (k : String) :
    k ∈ toLoadOf s inp fs ↔
      snapshot inp k ≠ none ∧ mapGet s.timestamps k ≠ snapshot inp k := by
  rw [toLoadOf_eq, ← mapGet_tsOf inp fs hg]
  constructor
  · intro h
    obtain ⟨⟨a, v⟩, he, rfl⟩ := List.mem_map.mp h
    obtain ⟨hmem, hp⟩ := List.mem_filter.mp he
    have hget : mapGet (tsOf inp fs) a = some v :=
      mapGet_of_mem (nodupKeys_tsOf inp fs) ((inp.rangeTs.perm _).subset hmem)
    rw [hget]
    exact ⟨by simp, by simpa using hp⟩
  · rintro ⟨h₁, h₂⟩
    cases hget : mapGet (tsOf inp fs) k with
    | none => exact absurd hget h₁
    | some v =>
      rw [hget] at h₂
      have hmem : (k, v) ∈ inp.rangeTs.order (tsOf inp fs) :=
        (inp.rangeTs.perm _).symm.subset (mem_of_mapGet hget)
      exact List.mem_map.mpr ⟨(k, v), List.mem_filter.mpr ⟨hmem, by simpa using h₂⟩, rfl⟩

theorem toDropOf_eq (s : DirectoryWatcher) (inp : ScanInput) (fs : List String) :
    toDropOf s inp fs =
      ((inp.rangeTimestamps.order (afterLoad s inp fs)).filter
        (fun e => decide (mapGet (tsOf inp fs) e.1 = none))).map Prod.fst := by
  rw [toDropOf, dropLoop_fst]
  simp

theorem toDropOf_nodup (s : DirectoryWatcher) (inp : ScanInput) (fs : List String)
    (h : NodupKeys s.timestamps) : (toDropOf s inp fs).Nodup := by
  rw [toDropOf_eq]
  exact List.Nodup.sublist ((List.filter_sublist _).map Prod.fst)
    (nodupKeys_order inp.rangeTimestamps (nodupKeys_afterLoad s inp fs h))

theorem mem_toDropOf (s : DirectoryWatcher) (inp : ScanInput) (fs : List String)
    (hg : inp.glob = .ok fs) (k : String) :
    k ∈ toDropOf s inp fs ↔ mapGet s.timestamps k ≠ none ∧ snapshot inp k = none := by
  rw [toDropOf_eq, ← mapGet_tsOf inp fs hg]
  have hk : k ∈ keys (inp.rangeTimestamps.order (afterLoad s inp fs)) ↔
      mapGet (afterLoad s inp fs) k ≠ none := by
    rw [← mem_keys_iff]
    exact ((inp.rangeTimestamps.perm _).map Prod.fst).mem_iff
  rw [mapGet_afterLoad s inp fs hg, ← mapGet_tsOf inp fs hg] at hk
  constructor
  · intro h
    obtain ⟨⟨a, v⟩, he, rfl⟩ := List.mem_map.mp h
    obtain ⟨hmem, hp⟩ := List.mem_filter.mp he
    have hnone : mapGet (tsOf inp fs) a = none := by simpa using hp
    have hin : a ∈ keys (inp.rangeTimestamps.order (afterLoad s inp fs)) :=
      List.mem_map.mpr ⟨(a, v), hmem, rfl⟩
    have := hk.mp hin
    rw [hnone] at this
    exact ⟨by simpa using this, hnone⟩
  · rintro ⟨h₁, h₂⟩
    have hin : k ∈ keys (inp.rangeTimestamps.order (afterLoad s inp fs)) := by
      rw [hk, h₂]; simpa using h₁
    obtain ⟨⟨a, v⟩, hmem, rfl⟩ := List.mem_map.mp hin
    exact List.mem_map.mpr ⟨(a, v), List.mem_filter.mpr ⟨hmem, by simpa using h₂⟩, rfl⟩

/-! ## Counting loader calls -/

theorem count_nodup {l : List String} (h : l.Nodup) (k : String) :
    l.count k = if k ∈ l then 1 else 0 := by
  by_cases hk : k ∈ l
  · rw [if_pos hk, List.count_eq_one_of_mem h hk]
  · rw [if_neg hk, List.count_eq_zero_of_not_mem hk]

theorem count_load_calls (D L : List String) (k : String) :
    (D.map Call.drop ++ L.map Call.load).count (Call.load k) = L.count k := by
  have hinj : Function.Injective Call.load := fun a b h => by cases h; rfl
  have h0 : (D.map Call.drop).count (Call.load k) = 0 :=
    List.count_eq_zero_of_not_mem (by simp)
  rw [List.count_append, h0, List.count_map_of_injective L Call.load hinj, Nat.zero_add]

theorem count_drop_calls (D L : List String) (k : String) :
    (D.map Call.drop ++ L.map Call.load).count (Call.drop k) = D.count k := by
  have hinj : Function.Injective Call.drop := fun a b h => by cases h; rfl
  have h0 : (L.map Call.load).count (Call.drop k) = 0 :=
    List.count_eq_zero_of_not_mem (by simp)
  rw [List.count_append, h0, List.count_map_of_injective D Call.drop hinj, Nat.add_zero]

theorem loadsOf_calls (D L : List String) :
    loadsOf (D.map Call.drop ++ L.map Call.load) = L := by
  induction D with
  | cons d D ih => simpa [loadsOf] using ih
  | nil =>
    induction L with
    | nil => rfl
    | cons a L ih =>
      simp only [List.map_nil, List.nil_append, List.map_cons, loadsOf] at ih ⊢
      rw [ih]

/-! ## Consequences for one `scan` and for sequences of scans -/

theorem count_load_scan (s : DirectoryWatcher) (inp : ScanInput)
    (h : (scan s inp).err = none) (k : String) :
    (scan s inp).calls.count (Call.load k) =
      if snapshot inp k ≠ none ∧ mapGet s.timestamps k ≠ snapshot inp k then 1 else 0 := by
  obtain ⟨fs, hg, he⟩ := scan_of_err_none s inp h
  rw [scan_ok s inp fs hg he]
  simp only
  rw [count_load_calls, (sortStrings_perm _).count_eq, count_nodup (toLoadOf_nodup s inp fs)]
  simp only [mem_toLoadOf s inp fs hg]

theorem count_drop_scan (s : DirectoryWatcher) (inp : ScanInput)
    (hn : NodupKeys s.timestamps) (h : (scan s inp).err = none) (k : String) :
    (scan s inp).calls.count (Call.drop k) =
      if mapGet s.timestamps k ≠ none ∧ snapshot inp k = none then 1 else 0 := by
  obtain ⟨fs, hg, he⟩ := scan_of_err_none s inp h
  rw [scan_ok s inp fs hg he]
  simp only
  rw [count_drop_calls, count_nodup (toDropOf_nodup s inp fs hn)]
  simp only [mem_toDropOf s inp fs hg]

theorem mapGet_scan (s : DirectoryWatcher) (inp : ScanInput)
    (h : (scan s inp).err = none) (k : String) :
    mapGet (scan s inp).watcher.timestamps k = snapshot inp k := by
  obtain ⟨fs, hg, he⟩ := scan_of_err_none s inp h
  rw [scan_ok s inp fs hg he]
  exact mapGet_afterDrop s inp fs hg k

theorem scan_unchanged_of_err (s : DirectoryWatcher) (inp : ScanInput)
    (h : (scan s inp).err ≠ none) : (scan s inp).watcher = s ∧ (scan s inp).calls = [] := by
  cases hg : inp.glob with
  | error e => rw [scan_glob_error s inp e hg]; exact ⟨rfl, rfl⟩
  | ok fs =>
    by_cases he : s.timestamps.length = 0 ∧ fs.length = 0
    · rw [scan_empty s inp fs hg he]; exact ⟨rfl, rfl⟩
    · rw [scan_ok s inp fs hg he] at h
      exact absurd rfl h

theorem nodupKeys_scan (s : DirectoryWatcher) (inp : ScanInput)
    (hn : NodupKeys s.timestamps) : NodupKeys (scan s inp).watcher.timestamps := by
  by_cases h : (scan s inp).err = none
  · obtain ⟨fs, hg, he⟩ := scan_of_err_none s inp h
    rw [scan_ok s inp fs hg he]
    exact nodupKeys_afterDrop s inp fs hn
  · rw [(scan_unchanged_of_err s inp h).1]
    exact hn

theorem nodupKeys_runScans : ∀ (ins : List ScanInput) (s : DirectoryWatcher),
    NodupKeys s.timestamps → NodupKeys (runScans s ins).1.timestamps
  | [], _, hn => hn
  | inp :: rest, s, hn => by
    rw [runScans]
    exact nodupKeys_runScans rest (scan s inp).watcher (nodupKeys_scan s inp hn)

theorem absent_after_scan (s : DirectoryWatcher) (inp : ScanInput) (k : String)
    (hT : mapGet s.timestamps k = none) (hS : snapshot inp k = none) :
    mapGet (scan s inp).watcher.timestamps k = none := by
  by_cases h : (scan s inp).err = none
  · rw [mapGet_scan s inp h k, hS]
  · rw [(scan_unchanged_of_err s inp h).1]
    exact hT

theorem absent_after_runScans (k : String) : ∀ (ins : List ScanInput) (s : DirectoryWatcher),
    mapGet s.timestamps k = none → (∀ m ∈ ins, snapshot m k = none) →
      mapGet (runScans s ins).1.timestamps k = none
  | [], _, hT, _ => hT
  | inp :: rest, s, hT, hS => by
    rw [runScans]
    exact absent_after_runScans k rest (scan s inp).watcher
      (absent_after_scan s inp k hT (hS inp (List.mem_cons_self _ _)))
      (fun m hm => hS m (List.mem_cons_of_mem _ hm))

theorem scan_err_none_of_listed (s : DirectoryWatcher) (inp : ScanInput) (k : String)
    (hS : snapshot inp k ≠ none) : (scan s inp).err = none := by
  cases hg : inp.glob with
  | error e => simp [snapshot, hg] at hS
  | ok fs =>
    have hk : k ∈ fs := by
      by_contra hk
      simp [snapshot, hg, hk] at hS
    have he : ¬ (s.timestamps.length = 0 ∧ fs.length = 0) := by
      rintro ⟨_, h0⟩
      rw [List.length_eq_zero.mp h0] at hk
      cases hk
    rw [scan_ok s inp fs hg he]

theorem eq_nil_of_mapGet_none {m : Timestamps} (h : ∀ k, mapGet m k = none) : m = [] := by
  cases m with
  | nil => rfl
  | cons e m =>
    obtain ⟨a, b⟩ := e
    have := h a
    simp [mapGet] at this

theorem contains_empty (dir : String) : Contains ("directory " ++ dir ++ " is empty") "empty" := by
  unfold Contains
  refine ⟨"directory ".toList ++ dir.toList ++ " is ".toList, [], ?_⟩
  simp only [String.toList, String.data_append, List.append_nil, List.append_assoc]
  rfl

theorem not_mem_calls_of_unchanged (s : DirectoryWatcher) (inp : ScanInput) (k : String)
    (t : Time) (hS : snapshot inp k = some t) (hT : mapGet s.timestamps k = some t) :
    Call.load k ∉ (scan s inp).calls ∧ Call.drop k ∉ (scan s inp).calls := by
  have herr := scan_err_none_of_listed s inp k (by rw [hS]; simp)
  obtain ⟨fs, hg, he⟩ := scan_of_err_none s inp herr
  rw [scan_ok s inp fs hg he]
  simp only [List.mem_append, List.mem_map, not_or]
  refine ⟨⟨by simp, ?_⟩, ⟨?_, by simp⟩⟩
  · rintro ⟨a, ha, hk⟩
    cases hk
    have := (mem_toLoadOf s inp fs hg k).mp ((sortStrings_perm _).subset ha)
    rw [hS, hT] at this
    exact this.2 rfl
  · rintro ⟨a, ha, hk⟩
    cases hk
    have := (mem_toDropOf s inp fs hg k).mp ha
    rw [hS] at this
    cases this.2

theorem rescan_same_listing (s : DirectoryWatcher) (inp : ScanInput) (r₃ r₄ : RangeOrder) :
    (scan (scan s inp).watcher ⟨inp.glob, inp.lstat, r₃, r₄⟩).calls = [] ∧
      (scan (scan s inp).watcher ⟨inp.glob, inp.lstat, r₃, r₄⟩).watcher = (scan s inp).watcher := by
  by_cases h : (scan s inp).err = none
  · obtain ⟨fs, hg, he⟩ := scan_of_err_none s inp h
    have hsnap : ∀ k, mapGet (scan s inp).watcher.timestamps k = snapshot inp k :=
      mapGet_scan s inp h
    generalize (scan s inp).watcher = s₁ at hsnap ⊢
    generalize hinp : (⟨inp.glob, inp.lstat, r₃, r₄⟩ : ScanInput) = inp'
    have hg' : inp'.glob = .ok fs := by rw [← hinp]; exact hg
    have hts : tsOf inp' fs = tsOf inp fs := by rw [← hinp]; rfl
    by_cases he' : s₁.timestamps.length = 0 ∧ fs.length = 0
    · rw [scan_empty s₁ inp' fs hg' he']; exact ⟨rfl, rfl⟩
    · have hl : loadLoop (inp'.rangeTs.order (tsOf inp' fs)) [] s₁.timestamps =
          ([], s₁.timestamps) := by
        apply loadLoop_id
        intro e hmem
        have hmem' : (e.1, e.2) ∈ tsOf inp fs := by
          rw [← hts]; exact (inp'.rangeTs.perm _).subset hmem
        rw [hsnap, ← mapGet_tsOf inp fs hg]
        exact mapGet_of_mem (nodupKeys_tsOf inp fs) hmem'
      have hal : afterLoad s₁ inp' fs = s₁.timestamps := by rw [afterLoad, hl]
      have hd : dropLoop (tsOf inp' fs) (inp'.rangeTimestamps.order s₁.timestamps) []
          s₁.timestamps = ([], s₁.timestamps) := by
        apply dropLoop_id
        intro e hmem
        have hk : e.1 ∈ keys s₁.timestamps :=
          List.mem_map.mpr ⟨e, (inp'.rangeTimestamps.perm _).subset hmem, rfl⟩
        rw [hts, mapGet_tsOf inp fs hg, ← hsnap]
        exact (mem_keys_iff _ _).mp hk
      rw [scan_ok s₁ inp' fs hg' he']
      have h₁ : toLoadOf s₁ inp' fs = [] := by rw [toLoadOf, hl]
      have h₂ : toDropOf s₁ inp' fs = [] := by rw [toDropOf, hal, hd]
      have h₃ : afterDrop s₁ inp' fs = s₁.timestamps := by rw [afterDrop, hal, hd]
      refine ⟨?_, ?_⟩
      · show List.map Call.drop (toDropOf s₁ inp' fs) ++
          List.map Call.load (sortStrings (toLoadOf s₁ inp' fs)) = []
        rw [h₁, h₂]; rfl
      · show (⟨s₁.dir, afterDrop s₁ inp' fs⟩ : DirectoryWatcher) = s₁
        rw [h₃]
  · obtain ⟨hw, _⟩ := scan_unchanged_of_err s inp h
    rw [hw]
    generalize hinp : (⟨inp.glob, inp.lstat, r₃, r₄⟩ : ScanInput) = inp'
    have hg' : inp'.glob = inp.glob := by rw [← hinp]
    have h' : (scan s inp').err ≠ none := by
      cases hg : inp.glob with
      | error e => rw [scan_glob_error s inp' e (hg'.trans hg)]; simp
      | ok fs =>
        by_cases he : s.timestamps.length = 0 ∧ fs.length = 0
        · rw [scan_empty s inp' fs (hg'.trans hg) he]; simp
        · rw [scan_ok s inp fs hg he] at h
          exact absurd rfl h
    obtain ⟨hw', hc'⟩ := scan_unchanged_of_err s inp' h'
    exact ⟨hc', hw'⟩

theorem loadsOf_scan_order (s : DirectoryWatcher) (inp : ScanInput) (r₃ r₄ : RangeOrder) :
    loadsOf (scan s ⟨inp.glob, inp.lstat, r₃, r₄⟩).calls = loadsOf (scan s inp).calls := by
  generalize hinp : (⟨inp.glob, inp.lstat, r₃, r₄⟩ : ScanInput) = inp'
  have hg' : inp'.glob = inp.glob := by rw [← hinp]
  cases hg : inp.glob with
  | error e => rw [scan_glob_error s inp' e (hg'.trans hg), scan_glob_error s inp e hg]
  | ok fs =>
    have hts : tsOf inp' fs = tsOf inp fs := by rw [← hinp]; rfl
    by_cases he : s.timestamps.length = 0 ∧ fs.length = 0
    · rw [scan_empty s inp' fs (hg'.trans hg) he, scan_empty s inp fs hg he]
    · rw [scan_ok s inp' fs (hg'.trans hg) he, scan_ok s inp fs hg he]
      simp only [loadsOf_calls]
      apply sortStrings_eq_of_perm
      rw [toLoadOf_eq, toLoadOf_eq, hts]
      apply List.Perm.map
      apply List.Perm.filter
      exact (inp'.rangeTs.perm _).trans (inp.rangeTs.perm _).symm

theorem loadsOf_scan_strict (s : DirectoryWatcher) (inp : ScanInput) :
    List.Pairwise strLT (loadsOf (scan s inp).calls) := by
  cases hg : inp.glob with
  | error e => rw [scan_glob_error s inp e hg]; exact List.Pairwise.nil
  | ok fs =>
    by_cases he : s.timestamps.length = 0 ∧ fs.length = 0
    · rw [scan_empty s inp fs hg he]; exact List.Pairwise.nil
    · rw [scan_ok s inp fs hg he]
      simp only [loadsOf_calls]
      exact sortStrings_strict (toLoadOf_nodup s inp fs)

theorem drops_before_loads (D L : List String) :
    List.Pairwise (fun a b => ¬ (a.isLoad = true ∧ b.isDrop = true))
      (D.map Call.drop ++ L.map Call.load) := by
  rw [List.pairwise_append]
  refine ⟨?_, ?_, ?_⟩
  · rw [List.pairwise_map]
    exact List.pairwise_of_forall (fun _ _ => by simp [Call.isLoad])
  · rw [List.pairwise_map]
    exact List.pairwise_of_forall (fun _ _ => by simp [Call.isDrop])
  · intro a ha b _
    obtain ⟨x, _, rfl⟩ := List.mem_map.mp ha
    simp [Call.isLoad]

/-! ## The claims -/

/-- C1: a scan that returns without error invokes `load` exactly once for each
path of the snapshot that is untracked or tracked with another timestamp, and
for no other path. -/
theorem scan_loads_new_or_changed_once (s : DirectoryWatcher) (inp : ScanInput)
    (h : (scan s inp).err = none) (k : String) :
    (scan s inp).calls.count (Call.load k) =
      if snapshot inp k ≠ none ∧ mapGet s.timestamps k ≠ snapshot inp k then 1 else 0 :=
  count_load_scan s inp h k

/-- C1 at a concrete input: the rewritten shard `a` is loaded exactly once. -/
theorem scan_loads_new_or_changed_once_witness :
    (scan trackedAB listingAC).err = none ∧
      (scan trackedAB listingAC).calls.count (Call.load "d/a.zoekt") = 1 :=
  ⟨by decide,
    (scan_loads_new_or_changed_once trackedAB listingAC (by decide) "d/a.zoekt").trans
      (by decide)⟩

/-- C2 as stated fails: the tracked shard `a` is still listed by the glob, its
`Lstat` fails, and the scan returns without error and drops it. -/
theorem scan_drops_listed_path_when_stat_fails :
    listingStatFails.glob = .ok ["d/a.zoekt", "d/b.zoekt"] ∧
      "d/a.zoekt" ∈ ["d/a.zoekt", "d/b.zoekt"] ∧
      mapGet trackedAB.timestamps "d/a.zoekt" = some 1 ∧
      listingStatFails.lstat "d/a.zoekt" = none ∧
      (scan trackedAB listingStatFails).err = none ∧
      (scan trackedAB listingStatFails).calls = [Call.drop "d/a.zoekt"] :=
  ⟨rfl, by decide, by decide, by decide, by decide, by decide⟩

/-- C2 amended: a scan that returns without error invokes `drop` exactly once
for each tracked path that is not in the snapshot and for no other path;
whatever scans run in between on listings without such a dropped path, the
next scan whose snapshot contains it returns without error and loads it
exactly once, whatever its timestamp; and of the listed paths, one whose
`Lstat` succeeds is never dropped, while a tracked one whose `Lstat` fails is
dropped exactly once. -/
theorem scan_drops_deleted_once_then_reloads (s : DirectoryWatcher) (inp : ScanInput)
    (hn : NodupKeys s.timestamps) (h : (scan s inp).err = none) :
    (∀ k, (scan s inp).calls.count (Call.drop k) =
      if mapGet s.timestamps k ≠ none ∧ snapshot inp k = none then 1 else 0) ∧
    (∀ k, mapGet s.timestamps k ≠ none → snapshot inp k = none →
      ∀ (mid : List ScanInput) (next : ScanInput),
        (∀ m ∈ mid, snapshot m k = none) → snapshot next k ≠ none →
          (scan (runScans (scan s inp).watcher mid).1 next).err = none ∧
          (scan (runScans (scan s inp).watcher mid).1 next).calls.count (Call.load k) = 1) ∧
    (∀ fs k, inp.glob = .ok fs → k ∈ fs →
      (inp.lstat k ≠ none → Call.drop k ∉ (scan s inp).calls) ∧
      (inp.lstat k = none → mapGet s.timestamps k ≠ none →
        (scan s inp).calls.count (Call.drop k) = 1)) := by
  refine ⟨count_drop_scan s inp hn h, ?_, ?_⟩
  · intro k _ hS mid next hmid hnext
    have habs : mapGet (runScans (scan s inp).watcher mid).1.timestamps k = none :=
      absent_after_runScans k mid _ (by rw [mapGet_scan s inp h k, hS]) hmid
    have herr := scan_err_none_of_listed (runScans (scan s inp).watcher mid).1 next k hnext
    refine ⟨herr, ?_⟩
    rw [count_load_scan _ next herr k, habs, if_pos ⟨hnext, fun e => hnext e.symm⟩]
  · intro fs k hg hk
    have hsnap : snapshot inp k = inp.lstat k := by
      rw [snapshot_ok inp fs hg k, if_pos hk]
    refine ⟨fun hstat => ?_, fun hstat hT => ?_⟩
    · apply List.count_eq_zero.mp
      rw [count_drop_scan s inp hn h k, hsnap, if_neg (fun hc => hstat hc.2)]
    · rw [count_drop_scan s inp hn h k, hsnap, if_pos ⟨hT, hstat⟩]

/-- C2 amended, at a concrete input: the deleted shard `b` is dropped exactly
once and, after one scan that still lacks it, loaded once when it is back with
the timestamp it had; the listed shard `a`, whose `Lstat` succeeds, is not
dropped. -/
theorem scan_drops_deleted_once_then_reloads_witness :
    NodupKeys trackedAB.timestamps ∧ (scan trackedAB listingAC).err = none ∧
      (scan trackedAB listingAC).calls.count (Call.drop "d/b.zoekt") = 1 ∧
      (scan (runScans (scan trackedAB listingAC).watcher [listingAC]).1 listingAB).calls.count
        (Call.load "d/b.zoekt") = 1 ∧
      Call.drop "d/a.zoekt" ∉ (scan trackedAB listingAC).calls :=
  ⟨by decide, by decide,
    ((scan_drops_deleted_once_then_reloads trackedAB listingAC (by decide) (by decide)).1
      "d/b.zoekt").trans (by decide),
    ((scan_drops_deleted_once_then_reloads trackedAB listingAC (by decide) (by decide)).2.1
      "d/b.zoekt" (by decide) (by decide) [listingAC] listingAB (by decide) (by decide)).2,
    ((scan_drops_deleted_once_then_reloads trackedAB listingAC (by decide) (by decide)).2.2
      ["d/a.zoekt", "d/c.zoekt"] "d/a.zoekt" rfl (by decide)).1 (by decide)⟩

/-- C3: after a scan that returns without error the tracked state is the
snapshot: every path is tracked with exactly the modification time the
snapshot gives it, the tracked keys are the paths of the snapshot, and the
map stays free of duplicate keys. -/
theorem scan_tracks_snapshot (s : DirectoryWatcher) (inp : ScanInput)
    (h : (scan s inp).err = none) :
    (∀ k, mapGet (scan s inp).watcher.timestamps k = snapshot inp k) ∧
    (∀ k, k ∈ keys (scan s inp).watcher.timestamps ↔ snapshot inp k ≠ none) ∧
    (NodupKeys s.timestamps → NodupKeys (scan s inp).watcher.timestamps) := by
  refine ⟨mapGet_scan s inp h, fun k => ?_, nodupKeys_scan s inp⟩
  rw [mem_keys_iff, mapGet_scan s inp h k]

/-- C3 at a concrete input: after the scan the rewritten shard `a` is tracked
with its new timestamp and the deleted shard `b` is not tracked. -/
theorem scan_tracks_snapshot_witness :
    (scan trackedAB listingAC).err = none ∧
      mapGet (scan trackedAB listingAC).watcher.timestamps "d/a.zoekt" = some 2 ∧
      mapGet (scan trackedAB listingAC).watcher.timestamps "d/b.zoekt" = none :=
  ⟨by decide,
    ((scan_tracks_snapshot trackedAB listingAC (by decide)).1 "d/a.zoekt").trans (by decide),
    ((scan_tracks_snapshot trackedAB listingAC (by decide)).1 "d/b.zoekt").trans (by decide)⟩

/-- C4: when the glob succeeds with the listing `fs`, `scan` returns an error
exactly when nothing is tracked and `fs` is empty; the message of that error
contains "empty", no loader call is made and the watcher is unchanged; and
`NewDirectoryWatcher` on an empty listing returns such an error, no watcher
and makes no loader call. -/
theorem scan_error_iff_nothing_known (s : DirectoryWatcher) (inp : ScanInput)
    (fs : List String) (hg : inp.glob = .ok fs) :
    ((scan s inp).err ≠ none ↔ (s.timestamps = [] ∧ fs = [])) ∧
    (∀ msg, (scan s inp).err = some msg →
      Contains msg "empty" ∧ (scan s inp).calls = [] ∧ (scan s inp).watcher = s) ∧
    (fs = [] → ∀ (dir : String) (watchErr : Option String),
      ∃ msg, NewDirectoryWatcher dir inp watchErr = (.error msg, []) ∧
        Contains msg "empty") := by
  by_cases he : s.timestamps.length = 0 ∧ fs.length = 0
  · have he' : s.timestamps = [] ∧ fs = [] :=
      ⟨List.length_eq_zero.mp he.1, List.length_eq_zero.mp he.2⟩
    refine ⟨?_, ?_, ?_⟩
    · rw [scan_empty s inp fs hg he]
      simp [he']
    · rw [scan_empty s inp fs hg he]
      intro msg hmsg
      simp only [Option.some.injEq] at hmsg
      subst hmsg
      exact ⟨contains_empty s.dir, rfl, rfl⟩
    · intro _ dir watchErr
      refine ⟨"directory " ++ dir ++ " is empty", ?_, contains_empty dir⟩
      unfold NewDirectoryWatcher
      rw [scan_empty ⟨dir, []⟩ inp fs hg ⟨rfl, he.2⟩]
  · have he' : ¬ (s.timestamps = [] ∧ fs = []) := by
      rintro ⟨h₁, h₂⟩
      exact he ⟨by rw [h₁]; rfl, by rw [h₂]; rfl⟩
    refine ⟨?_, ?_, ?_⟩
    · rw [scan_ok s inp fs hg he]
      simp [he']
    · rw [scan_ok s inp fs hg he]
      intro msg hmsg
      cases hmsg
    · intro hfs dir watchErr
      refine ⟨"directory " ++ dir ++ " is empty", ?_, contains_empty dir⟩
      unfold NewDirectoryWatcher
      rw [scan_empty ⟨dir, []⟩ inp fs hg ⟨rfl, by rw [hfs]; rfl⟩]

/-- C4 at a concrete input: a fresh watcher on an empty listing gets an
error. -/
theorem scan_error_iff_nothing_known_witness :
    listingNone.glob = .ok [] ∧ (scan ⟨"d", []⟩ listingNone).err ≠ none :=
  ⟨rfl, (scan_error_iff_nothing_known ⟨"d", []⟩ listingNone [] rfl).1.mpr ⟨rfl, rfl⟩⟩

/-- C5 as stated fails: after a successful first scan that tracks the shard
`a`, a scan on an empty listing drops `a`, and the following scan on an empty
listing returns an error. -/
theorem later_empty_scan_returns_error :
    (scan ⟨"d", []⟩ listingA).err = none ∧ listingNone.glob = .ok [] ∧
      (scan (watcherAfter "d" listingA []) listingNone).calls = [Call.drop "d/a.zoekt"] ∧
      (scan (watcherAfter "d" listingA [listingNone]) listingNone).err =
        some "directory d is empty" :=
  ⟨by decide, rfl, by decide, by decide⟩

/-- C5 amended: after a successful first scan and any later scans, a scan
whose listing succeeds without any matching file returns no error when some
file is still tracked, drops every tracked file exactly once, loads nothing
and leaves nothing tracked; when nothing is tracked it returns the error
containing "empty", makes no loader call and leaves the watcher unchanged. -/
theorem empty_listing_drops_all_tracked (dir : String) (first : ScanInput)
    (later : List ScanInput) (inp : ScanInput)
    (_hfirst : (scan ⟨dir, []⟩ first).err = none) (hg : inp.glob = .ok []) :
    ((watcherAfter dir first later).timestamps ≠ [] →
      (scan (watcherAfter dir first later) inp).err = none ∧
      (∀ k, (scan (watcherAfter dir first later) inp).calls.count (Call.drop k) =
        if k ∈ keys (watcherAfter dir first later).timestamps then 1 else 0) ∧
      (∀ k, (scan (watcherAfter dir first later) inp).calls.count (Call.load k) = 0) ∧
      (scan (watcherAfter dir first later) inp).watcher.timestamps = []) ∧
    ((watcherAfter dir first later).timestamps = [] →
      (∃ msg, (scan (watcherAfter dir first later) inp).err = some msg ∧
        Contains msg "empty") ∧
      (scan (watcherAfter dir first later) inp).calls = [] ∧
      (scan (watcherAfter dir first later) inp).watcher = watcherAfter dir first later) := by
  have hn : NodupKeys (watcherAfter dir first later).timestamps :=
    nodupKeys_runScans later _ (nodupKeys_scan ⟨dir, []⟩ first List.nodup_nil)
  generalize watcherAfter dir first later = w at hn ⊢
  have hsnap : ∀ k, snapshot inp k = none := fun k => by simp [snapshot, hg]
  constructor
  · intro hne
    have he : ¬ (w.timestamps.length = 0 ∧ ([] : List String).length = 0) :=
      fun h => hne (List.length_eq_zero.mp h.1)
    have herr : (scan w inp).err = none := by rw [scan_ok w inp [] hg he]
    refine ⟨herr, fun k => ?_, fun k => ?_, ?_⟩
    · rw [count_drop_scan w inp hn herr k]
      simp only [hsnap, and_true, mem_keys_iff]
    · rw [count_load_scan w inp herr k]
      simp [hsnap]
    · exact eq_nil_of_mapGet_none (fun k => by rw [mapGet_scan w inp herr k, hsnap])
  · intro hnil
    have he : w.timestamps.length = 0 ∧ ([] : List String).length = 0 :=
      ⟨by rw [hnil]; rfl, rfl⟩
    rw [scan_empty w inp [] hg he]
    exact ⟨⟨_, rfl, contains_empty w.dir⟩, rfl, rfl⟩

/-- C5 amended, at a concrete input: with the shard `a` tracked, the scan on
an empty listing returns no error and leaves nothing tracked. -/
theorem empty_listing_drops_all_tracked_witness :
    (scan ⟨"d", []⟩ listingA).err = none ∧ listingNone.glob = .ok [] ∧
      (watcherAfter "d" listingA []).timestamps ≠ [] ∧
      (scan (watcherAfter "d" listingA []) listingNone).err = none ∧
      (scan (watcherAfter "d" listingA []) listingNone).watcher.timestamps = [] :=
  ⟨by decide, rfl, by decide,
    ((empty_listing_drops_all_tracked "d" listingA [] listingNone (by decide) rfl).1
      (by decide)).1,
    ((empty_listing_drops_all_tracked "d" listingA [] listingNone (by decide) rfl).1
      (by decide)).2.2.2⟩

/-- C6: a path whose modification time in the snapshot equals its tracked
timestamp gets neither `load` nor `drop`; and a scan run again on the same
listing with the same modification times, whatever the iteration orders,
makes no loader call and leaves the watcher as it is. -/
theorem unchanged_file_triggers_nothing (s : DirectoryWatcher) (inp : ScanInput) :
    (∀ k t, snapshot inp k = some t → mapGet s.timestamps k = some t →
      Call.load k ∉ (scan s inp).calls ∧ Call.drop k ∉ (scan s inp).calls) ∧
    (∀ r₃ r₄ : RangeOrder,
      (scan (scan s inp).watcher ⟨inp.glob, inp.lstat, r₃, r₄⟩).calls = [] ∧
      (scan (scan s inp).watcher ⟨inp.glob, inp.lstat, r₃, r₄⟩).watcher =
        (scan s inp).watcher) :=
  ⟨not_mem_calls_of_unchanged s inp, rescan_same_listing s inp⟩

/-- C6 at a concrete input: the shard `a` keeps its timestamp and is neither
loaded nor dropped. -/
theorem unchanged_file_triggers_nothing_witness :
    snapshot listingA "d/a.zoekt" = some 1 ∧
      mapGet (watcherAfter "d" listingA []).timestamps "d/a.zoekt" = some 1 ∧
      Call.load "d/a.zoekt" ∉ (scan (watcherAfter "d" listingA []) listingA).calls ∧
      Call.drop "d/a.zoekt" ∉ (scan (watcherAfter "d" listingA []) listingA).calls :=
  ⟨by decide, by decide,
    (unchanged_file_triggers_nothing (watcherAfter "d" listingA []) listingA).1
      "d/a.zoekt" 1 (by decide) (by decide)⟩

/-- C7 as stated fails for a negative `max`: for the single path `dir/1` and
`max = -1` the function returns "... 1 more" where the specification gives
"... 2 more". -/
theorem humanTruncateList_negative_max :
    (humanTruncateList ["dir/1"] (-1)).2 = "... 1 more" ∧
      humanTruncateClaim ["dir/1"] (-1) = "... 2 more" ∧
      (humanTruncateList ["dir/1"] (-1)).2 ≠ humanTruncateClaim ["dir/1"] (-1) :=
  ⟨by decide, by decide, by decide⟩

/-- C7 amended: for every list of paths and every integer `max`, the string
`humanTruncateList` returns is the one the specification gives for `max`
raised to zero when negative: the base names of the first `max` sorted paths
joined with `", "`, then `"... <remaining> more"` with
`remaining = total - max` exactly when `total > max`; and the five results of
the test for `dir/1` to `dir/4` are as listed. -/
theorem humanTruncateList_string :
    (∀ (paths : List String) (max : Int),
      (humanTruncateList paths max).2 = humanTruncateClaim paths (Max.max max 0)) ∧
    (humanTruncateList ["dir/1", "dir/2", "dir/3", "dir/4"] 1).2 = "1... 3 more" ∧
    (humanTruncateList ["dir/1", "dir/2", "dir/3", "dir/4"] 2).2 = "1, 2... 2 more" ∧
    (humanTruncateList ["dir/1", "dir/2", "dir/3", "dir/4"] 3).2 = "1, 2, 3... 1 more" ∧
    (humanTruncateList ["dir/1", "dir/2", "dir/3", "dir/4"] 4).2 = "1, 2, 3, 4" ∧
    (humanTruncateList ["dir/1", "dir/2", "dir/3", "dir/4"] 5).2 = "1, 2, 3, 4" := by
  refine ⟨fun paths max => ?_, by decide, by decide, by decide, by decide, by decide⟩
  by_cases h : 0 ≤ max
  · rw [max_eq_left h]
    exact humanTruncateList_nonneg paths max h
  · have h' : max ≤ 0 := by omega
    rw [max_eq_right h', humanTruncateList_neg paths max h']
    exact humanTruncateList_nonneg paths 0 (le_refl 0)

/-- C8: in the loader calls of one scan no `drop` comes after a `load`. -/
theorem scan_drops_before_loads (s : DirectoryWatcher) (inp : ScanInput) :
    List.Pairwise (fun a b => ¬ (a.isLoad = true ∧ b.isDrop = true)) (scan s inp).calls := by
  cases hg : inp.glob with
  | error e => rw [scan_glob_error s inp e hg]; exact List.Pairwise.nil
  | ok fs =>
    by_cases he : s.timestamps.length = 0 ∧ fs.length = 0
    · rw [scan_empty s inp fs hg he]; exact List.Pairwise.nil
    · rw [scan_ok s inp fs hg he]
      exact drops_before_loads _ _

/-- C10: `humanTruncateList` leaves the slice of the caller as the ascending
arrangement of its elements; the loads of every scan are issued in strictly
ascending order of the full path; and the sequence of loads does not depend
on the orders in which the two maps are iterated. -/
theorem scan_loads_in_ascending_order :
    (∀ (paths : List String) (max : Int),
      List.Sorted strLE (humanTruncateList paths max).1 ∧
      (humanTruncateList paths max).1.Perm paths) ∧
    (∀ (s : DirectoryWatcher) (inp : ScanInput),
      List.Pairwise strLT (loadsOf (scan s inp).calls)) ∧
    (∀ (s : DirectoryWatcher) (inp : ScanInput) (r₃ r₄ : RangeOrder),
      loadsOf (scan s ⟨inp.glob, inp.lstat, r₃, r₄⟩).calls = loadsOf (scan s inp).calls) :=
  ⟨fun paths _ => ⟨sortStrings_sorted paths, sortStrings_perm paths⟩,
    loadsOf_scan_strict, loadsOf_scan_order⟩

end Shards
